import Mathlib

/-!
# dfa_table: a trie-shaped automaton mapping symbol sequences to values

Shallow embedding of `src/dfa_table.hpp` (namespace `unorthodox`) and of the
calls made by `src/ddfa.cpp`, followed by the properties proved about it.

Modelling conventions.
* `std::unordered_map` is an association list holding at most one entry per
  key; a key that is inserted is put in front.  Iteration order of the real
  container is unspecified and no modelled function depends on it.
* `operator[]` of the map is `map_type.index`: it returns the mapped value and
  the map, which has gained a value-initialised entry when the key was absent.
* `state_type` is `int`.  It is modelled by the unbounded integers: the
  conversion of `transitions.size() + 1` to `int` is value preserving while the
  table holds fewer than `2^31 - 1` edges, and the model covers that range.
* `std::span::front()` on an empty span is undefined behaviour; functions that
  can reach it return `Except undefined_behaviour`.
* The line `std::cout << current_state` of `entry` only prints and is left out.
* The member `transition_result` is not embedded.  It is declared `const` and
  its last statement, `return transitions[transition];`, applies `operator[]`
  to the const data member, while `std::unordered_map` has no const
  `operator[]`: every instantiation of the member is ill-formed, so a call of
  it has no behaviour that a definition could follow.
* `size_t` has 64 bits; the hashes `std::hash<S>` and `std::hash<T>` of the two
  member types of a transition key are parameters of the modelled hash.
-/

namespace unorthodox

/-- Value of the macro `UDX_ZERO_FLAGS`. -/
def UDX_ZERO_FLAGS : Nat := 0

/-- The struct `state_transition<State, Transition>`.  The member `flags`
(a `uint8_t`) has the default member initialiser `UDX_ZERO_FLAGS`; the
defaulted comparison compares all three members. -/
structure state_transition (State Transition : Type) where
  current : State
  transition : Transition
  flags : Nat := UDX_ZERO_FLAGS
deriving DecidableEq

namespace state_transition

variable {State Transition : Type} [DecidableEq State] [DecidableEq Transition]

/-- The `operator==` that the defaulted `operator<=>` of `state_transition`
declares: the members are compared one by one in declaration order, `flags`
included.  It is the equality `std::unordered_map` uses on its keys. -/
def operator_eq (a b : state_transition State Transition) : Bool :=
  decide (a.current = b.current) && decide (a.transition = b.transition) &&
    decide (a.flags = b.flags)

/-- Number of values of `size_t` (64 bits). -/
def SIZE_T_RANGE : Nat := 2 ^ 64

/-- The constant `prime` of the hash. -/
def prime : Nat := 2027

/-- The call operator of `std::hash<state_transition<S, T>>`.  The hashes of the
two member types, `hash<S>` and `hash<T>`, are parameters; their results and
every intermediate `hash_value` are `size_t`, hence reduced modulo `2^64`. -/
def hash (hash_S : State → Nat) (hash_T : Transition → Nat)
    (tr : state_transition State Transition) : Nat :=
  let hash_value := hash_S tr.current % SIZE_T_RANGE
  let hash_value := (hash_value * prime) % SIZE_T_RANGE
  let hash_value := (hash_value + hash_T tr.transition % SIZE_T_RANGE) % SIZE_T_RANGE
  hash_value

end state_transition

/-- The alias `map_type<MK, MV>` for `std::unordered_map<MK, MV>`. -/
abbrev map_type (MK MV : Type) := List (MK × MV)

namespace map_type

variable {MK MV : Type} [DecidableEq MK]

/-- Mapped value of `key`, when the map has an entry for it (`find`). -/
def find : map_type MK MV → MK → Option MV
  | [], _ => none
  | (k, v) :: m, key => if k = key then some v else find m key

/-- The member `contains`. -/
def contains (m : map_type MK MV) (key : MK) : Bool :=
  (find m key).isSome

/-- The member `size`. -/
def size (m : map_type MK MV) : Nat :=
  m.length

/-- The member `operator[]` read as an rvalue: the mapped value together with
the map afterwards.  An absent key is first inserted with a value-initialised
mapped value. -/
def index [Inhabited MV] (m : map_type MK MV) (key : MK) : MV × map_type MK MV :=
  match find m key with
  | some v => (v, m)
  | none => (default, (key, default) :: m)

/-- The statement `m[key] = v`: overwrite the mapped value of an existing key,
insert the entry otherwise. -/
def assign (m : map_type MK MV) (key : MK) (v : MV) : map_type MK MV :=
  if contains m key then
    m.map (fun e => if e.1 = key then (e.1, v) else e)
  else
    (key, v) :: m

end map_type

/-- Outcomes the language leaves undefined and that the modelled code can reach. -/
inductive undefined_behaviour where
  | front_of_empty_span
deriving DecidableEq

/-- The member type `dfa_table::state_type`, which is `int`. -/
abbrev state_type := Int

/-- The member type `dfa_table::transition_type`. -/
abbrev transition_type (K : Type) := state_transition state_type K

/-- The member type `dfa_table::transition_map`. -/
abbrev transition_map (K : Type) := map_type (transition_type K) state_type

/-- The member type `dfa_table::value_map`. -/
abbrev value_map (V : Type) := map_type state_type V

/-- The class template `dfa_table<K, V>`: its two data members. -/
structure dfa_table (K V : Type) where
  transitions : transition_map K
  final_states : value_map V
deriving DecidableEq

namespace dfa_table

variable {K V : Type} [DecidableEq K]

/-- The constant `dfa_table::INITIAL_STATE`. -/
def INITIAL_STATE : state_type := 0

/-- A default-constructed `dfa_table`: both maps empty. -/
def empty : dfa_table K V :=
  ⟨[], []⟩

/-- The private member `create_transitions(current_state, new_transitions)`,
with the transition table passed in and returned.  The span is a list; taking
`front()` of an empty span is undefined. -/
def create_transitions (transitions : transition_map K) (current_state : state_type) :
    List K → Except undefined_behaviour (state_type × transition_map K)
  | [] => Except.error undefined_behaviour.front_of_empty_span
  | front :: rest =>
    let transition : transition_type K := { current := current_state, transition := front }
    let transitions1 : transition_map K :=
      if !map_type.contains transitions transition then
        let new_state_index : state_type := (map_type.size transitions : Int) + 1
        map_type.assign transitions transition new_state_index
      else
        transitions
    let next := map_type.index transitions1 transition
    if (front :: rest).length > 1 then
      create_transitions next.2 next.1 rest
    else
      Except.ok next

/-- The member `insert(values, result)`. -/
def insert (d : dfa_table K V) (values : List K) (result : V) :
    Except undefined_behaviour (dfa_table K V) :=
  match create_transitions d.transitions INITIAL_STATE values with
  | Except.error e => Except.error e
  | Except.ok (final_state, transitions) =>
    Except.ok { transitions := transitions,
                final_states := map_type.assign d.final_states final_state result }

/-- One iteration of the loop of `entry`: `current_state = transitions[transition]`. -/
def entry_step (acc : state_type × transition_map K) (v : K) :
    state_type × transition_map K :=
  map_type.index acc.2 { current := acc.1, transition := v }

/-- The member `entry(values)`: the returned value and the automaton afterwards. -/
def entry [Inhabited V] (d : dfa_table K V) (values : List K) : V × dfa_table K V :=
  let walked := values.foldl entry_step (INITIAL_STATE, d.transitions)
  let found := map_type.index d.final_states walked.1
  (found.1, { transitions := walked.2, final_states := found.2 })

/-- A sequence of `insert` calls, as in `main`, run from left to right. -/
def inserts (d : dfa_table K V) : List (List K × V) → Except undefined_behaviour (dfa_table K V)
  | [] => Except.ok d
  | (values, result) :: calls =>
    match insert d values result with
    | Except.error e => Except.error e
    | Except.ok d1 => inserts d1 calls

/-! ### Notions used to state the properties -/

/-- The key that the code builds for source state `s` and symbol `x`
(`flags` keeps its default member initialiser). -/
def edge_key (s : state_type) (x : K) : transition_type K :=
  { current := s, transition := x }

/-- End state of the path of a symbol sequence from state `s`, following the
edges stored in the table; `none` when an edge is missing. -/
def walk (T : transition_map K) (s : state_type) : List K → Option state_type
  | [] => some s
  | x :: rest =>
    match map_type.find T (edge_key s x) with
    | none => none
    | some t => walk T t rest

/-- States entered, in order, while following a symbol sequence from state
`s`; the list stops at the first missing edge. -/
def visited (T : transition_map K) (s : state_type) : List K → List state_type
  | [] => []
  | x :: rest =>
    match map_type.find T (edge_key s x) with
    | none => []
    | some t => t :: visited T t rest

/-- Every entry of the first map is an entry of the second, with the same
mapped value. -/
def preserved_in {MK MV : Type} [DecidableEq MK] (m m1 : map_type MK MV) : Prop :=
  ∀ key v, map_type.find m key = some v → map_type.find m1 key = some v

/-- Shape of a transition table that only insertions have touched: read from
the oldest entry to the newest, the targets are 1, 2, 3, ...; every key is
stored once, carries zero flags and has a source between 0 and the number of
entries stored before it. -/
def trie_shaped : transition_map K → Prop
  | [] => True
  | (key, t) :: T =>
    t = (T.length : Int) + 1 ∧ map_type.find T key = none ∧ key.flags = UDX_ZERO_FLAGS ∧
      0 ≤ key.current ∧ key.current ≤ (T.length : Int) ∧ trie_shaped T

/-- The operation `ensure_edge(state, symbol)` as the specification words it:
if the edge exists, its target is returned; otherwise a fresh state
identifier, the number of stored edges plus one, is allocated, the edge is
inserted and the new identifier is returned. -/
def ensure_edge (T : transition_map K) (s : state_type) (x : K) :
    state_type × transition_map K :=
  match map_type.find T (edge_key s x) with
  | some t => (t, T)
  | none => ((map_type.size T : Int) + 1, (edge_key s x, (map_type.size T : Int) + 1) :: T)

/-- The loop of the specification: starting from `current`, for each symbol in
order `current = ensure_edge(current, symbol)`. -/
def ensure_path (T : transition_map K) (current : state_type) (sequence : List K) :
    state_type × transition_map K :=
  sequence.foldl (fun acc symbol => ensure_edge acc.2 acc.1 symbol) (current, T)

/-- Value of the last insertion, in a list of `insert` calls, whose key has a
path from `INITIAL_STATE` ending in state `s`; `none` when no key ends there. -/
def last_value_at {V : Type} (T : transition_map K) (s : state_type) :
    List (List K × V) → Option V
  | [] => none
  | (k, v) :: calls =>
    match last_value_at T s calls with
    | some w => some w
    | none => if walk T INITIAL_STATE k = some s then some v else none

end dfa_table

end unorthodox

/-! ## Properties -/

namespace unorthodox

namespace map_type

variable {MK MV : Type} [DecidableEq MK]

theorem find_cons_self (m : map_type MK MV) (key : MK) (v : MV) :
    find ((key, v) :: m) key = some v := by
  simp [find]

theorem find_cons_ne (m : map_type MK MV) {k key : MK} (v : MV) (h : k ≠ key) :
    find ((k, v) :: m) key = find m key := by
  simp [find, h]

theorem contains_eq_false_iff (m : map_type MK MV) (key : MK) :
    contains m key = false ↔ find m key = none := by
  unfold contains
  cases find m key <;> simp

theorem contains_eq_true_iff (m : map_type MK MV) (key : MK) :
    contains m key = true ↔ ∃ v, find m key = some v := by
  unfold contains
  cases find m key <;> simp

theorem mem_of_find {m : map_type MK MV} {key : MK} {v : MV} (h : find m key = some v) :
    (key, v) ∈ m := by
  induction m with
  | nil => simp [find] at h
  | cons e m ih =>
    obtain ⟨k, w⟩ := e
    by_cases hk : k = key
    · subst hk
      rw [find_cons_self] at h
      cases h
      exact List.mem_cons_self _ _
    · rw [find_cons_ne m w hk] at h
      exact List.mem_cons_of_mem _ (ih h)

theorem find_eq_none_iff (m : map_type MK MV) (key : MK) :
    find m key = none ↔ key ∉ m.map Prod.fst := by
  induction m with
  | nil => simp [find]
  | cons e m ih =>
    obtain ⟨k, w⟩ := e
    by_cases hk : k = key
    · subst hk
      simp [find]
    · rw [find_cons_ne m w hk, ih]
      simp only [List.map_cons, List.mem_cons, not_or]
      constructor
      · intro h
        exact ⟨fun h1 => hk h1.symm, h⟩
      · intro h
        exact h.2

theorem index_of_find_some [Inhabited MV] {m : map_type MK MV} {key : MK} {v : MV}
    (h : find m key = some v) : index m key = (v, m) := by
  simp [index, h]

theorem assign_of_find_none {m : map_type MK MV} {key : MK} (v : MV)
    (h : find m key = none) : assign m key v = (key, v) :: m := by
  have hc : contains m key = false := (contains_eq_false_iff m key).2 h
  simp [assign, hc]

theorem assign_of_find_some {m : map_type MK MV} {key : MK} {w : MV} (v : MV)
    (h : find m key = some w) :
    assign m key v = m.map (fun e => if e.1 = key then (e.1, v) else e) := by
  have hc : contains m key = true := (contains_eq_true_iff m key).2 ⟨w, h⟩
  simp [assign, hc]

theorem find_map_overwrite (m : map_type MK MV) (key k : MK) (v : MV) :
    find (m.map (fun e => if e.1 = key then (e.1, v) else e)) k =
      if k = key then (find m k).map (fun _ => v) else find m k := by
  induction m with
  | nil => simp [find]
  | cons e m ih =>
    obtain ⟨a, w⟩ := e
    simp only [List.map_cons]
    by_cases ha : a = key
    · rw [if_pos ha]
      by_cases hk : a = k
      · have hkk : k = key := by rw [← hk, ha]
        rw [hk, find_cons_self, find_cons_self, if_pos hkk]
        rfl
      · rw [find_cons_ne _ _ hk, find_cons_ne _ _ hk, ih]
    · rw [if_neg ha]
      by_cases hk : a = k
      · have hkk : ¬ k = key := by rw [← hk]; exact ha
        rw [hk, find_cons_self, find_cons_self, if_neg hkk]
      · rw [find_cons_ne _ _ hk, find_cons_ne _ _ hk, ih]

theorem find_assign_self (m : map_type MK MV) (key : MK) (v : MV) :
    find (assign m key v) key = some v := by
  cases h : find m key with
  | none => rw [assign_of_find_none v h, find_cons_self]
  | some w => rw [assign_of_find_some v h, find_map_overwrite, if_pos rfl, h]; rfl

theorem find_assign_ne (m : map_type MK MV) {key k : MK} (v : MV) (hk : k ≠ key) :
    find (assign m key v) k = find m k := by
  cases h : find m key with
  | none => rw [assign_of_find_none v h, find_cons_ne _ _ (fun h1 => hk h1.symm)]
  | some w => rw [assign_of_find_some v h, find_map_overwrite, if_neg hk]

end map_type

end unorthodox

namespace unorthodox

namespace dfa_table

variable {K V : Type} [DecidableEq K]

theorem preserved_in_refl {MK MV : Type} [DecidableEq MK] (m : map_type MK MV) :
    preserved_in m m :=
  fun _ _ h => h

theorem preserved_in_trans {MK MV : Type} [DecidableEq MK] {m m1 m2 : map_type MK MV}
    (h1 : preserved_in m m1) (h2 : preserved_in m1 m2) : preserved_in m m2 :=
  fun key v h => h2 key v (h1 key v h)

theorem preserved_in_cons {MK MV : Type} [DecidableEq MK] {m : map_type MK MV} {key : MK}
    (v : MV) (h : map_type.find m key = none) : preserved_in m ((key, v) :: m) := by
  intro k w hk
  have hne : key ≠ k := by
    intro he
    rw [he, hk] at h
    cases h
  rw [map_type.find_cons_ne _ _ hne]
  exact hk

/-- First step of `create_transitions` when the edge is missing. -/
theorem create_transitions_absent (T : transition_map K) (s : state_type) (x : K)
    (rest : List K) (h : map_type.find T (edge_key s x) = none) :
    create_transitions T s (x :: rest) =
      if rest = [] then
        Except.ok ((T.length : Int) + 1, (edge_key s x, (T.length : Int) + 1) :: T)
      else
        create_transitions ((edge_key s x, (T.length : Int) + 1) :: T) ((T.length : Int) + 1) rest := by
  have hc : map_type.contains T (edge_key s x) = false :=
    (map_type.contains_eq_false_iff T _).2 h
  have hi : map_type.index ((edge_key s x, (T.length : Int) + 1) :: T) (edge_key s x) =
      ((T.length : Int) + 1, (edge_key s x, (T.length : Int) + 1) :: T) :=
    map_type.index_of_find_some (map_type.find_cons_self _ _ _)
  have ha := map_type.assign_of_find_none ((T.length : Int) + 1) h
  unfold edge_key at hc hi ha
  cases rest with
  | nil =>
    simp only [create_transitions]
    simp [hc, ha, hi, map_type.size, edge_key]
  | cons y r =>
    rw [create_transitions]
    simp [hc, ha, hi, map_type.size, edge_key]

theorem create_transitions_present (T : transition_map K) (s : state_type) (x : K)
    (rest : List K) {t : state_type} (h : map_type.find T (edge_key s x) = some t) :
    create_transitions T s (x :: rest) =
      if rest = [] then Except.ok (t, T) else create_transitions T t rest := by
  have hc : map_type.contains T (edge_key s x) = true :=
    (map_type.contains_eq_true_iff T _).2 ⟨t, h⟩
  have hi : map_type.index T (edge_key s x) = (t, T) := map_type.index_of_find_some h
  unfold edge_key at hc hi
  cases rest with
  | nil =>
    simp only [create_transitions]
    simp [hc, hi]
  | cons y r =>
    rw [create_transitions]
    simp [hc, hi]

theorem walk_mono {T T1 : transition_map K} (h : preserved_in T T1) :
    ∀ (k : List K) (s t : state_type), walk T s k = some t → walk T1 s k = some t := by
  intro k
  induction k with
  | nil => intro s t hw; exact hw
  | cons x rest ih =>
    intro s t hw
    simp only [walk] at hw ⊢
    cases hf : map_type.find T (edge_key s x) with
    | none => rw [hf] at hw; cases hw
    | some u =>
      rw [hf] at hw
      rw [h _ _ hf]
      exact ih u t hw

/-- A non-empty span is processed without undefined behaviour; stored edges
keep their targets and afterwards the whole path exists and ends in the
returned state. -/
theorem create_transitions_spec (k : List K) (hk : k ≠ []) :
    ∀ (T : transition_map K) (s : state_type),
      ∃ r, create_transitions T s k = Except.ok r ∧ preserved_in T r.2 ∧
        walk r.2 s k = some r.1 := by
  induction k with
  | nil => exact absurd rfl hk
  | cons x rest ih =>
    intro T s
    cases hf : map_type.find T (edge_key s x) with
    | none =>
      rw [create_transitions_absent T s x rest hf]
      have hp := preserved_in_cons ((T.length : Int) + 1) hf
      by_cases hr : rest = []
      · subst hr
        refine ⟨_, if_pos rfl, hp, ?_⟩
        simp [walk, map_type.find_cons_self]
      · rw [if_neg hr]
        obtain ⟨r, hr1, hr2, hr3⟩ :=
          ih hr ((edge_key s x, (T.length : Int) + 1) :: T) ((T.length : Int) + 1)
        refine ⟨r, hr1, preserved_in_trans hp hr2, ?_⟩
        simp only [walk]
        rw [hr2 _ _ (map_type.find_cons_self _ _ _)]
        exact hr3
    | some t =>
      rw [create_transitions_present T s x rest hf]
      by_cases hr : rest = []
      · subst hr
        refine ⟨_, if_pos rfl, preserved_in_refl T, ?_⟩
        simp [walk, hf]
      · rw [if_neg hr]
        obtain ⟨r, hr1, hr2, hr3⟩ := ih hr T t
        refine ⟨r, hr1, hr2, ?_⟩
        simp only [walk]
        rw [hr2 _ _ hf]
        exact hr3

theorem trie_shaped_mem {T : transition_map K} (hT : trie_shaped T)
    {key : transition_type K} {t : state_type} (hm : (key, t) ∈ T) :
    1 ≤ t ∧ t ≤ (T.length : Int) ∧ 0 ≤ key.current ∧ key.current < t ∧
      key.flags = UDX_ZERO_FLAGS := by
  induction T with
  | nil => cases hm
  | cons e T ih =>
    obtain ⟨k, u⟩ := e
    obtain ⟨h1, _, h3, h4, h5, h6⟩ := hT
    rcases List.mem_cons.1 hm with he | hm1
    · cases he
      simp only [state_type, List.length_cons, Nat.cast_add, Nat.cast_one] at *
      exact ⟨by omega, by omega, h4, by omega, h3⟩
    · obtain ⟨a, b, c, d, e⟩ := ih h6 hm1
      simp only [state_type, List.length_cons, Nat.cast_add, Nat.cast_one] at *
      exact ⟨a, by omega, c, d, e⟩

theorem walk_nonneg {T : transition_map K} (hT : trie_shaped T) :
    ∀ (k : List K) (s t : state_type), 0 ≤ s → walk T s k = some t → 0 ≤ t := by
  intro k
  induction k with
  | nil =>
    intro s t hs hw
    simp only [walk, Option.some.injEq] at hw
    rw [← hw]; exact hs
  | cons x rest ih =>
    intro s t _ hw
    simp only [walk] at hw
    cases hf : map_type.find T (edge_key s x) with
    | none => rw [hf] at hw; cases hw
    | some u =>
      rw [hf] at hw
      have hu := (trie_shaped_mem hT (map_type.mem_of_find hf)).1
      refine ih u t ?_ hw
      simp only [state_type] at *
      omega

theorem create_transitions_trie_shaped (k : List K) :
    ∀ (T : transition_map K) (s : state_type) (r : state_type × transition_map K),
      trie_shaped T → 0 ≤ s → s ≤ (T.length : Int) →
      create_transitions T s k = Except.ok r →
      trie_shaped r.2 ∧ 0 ≤ r.1 ∧ r.1 ≤ (r.2.length : Int) := by
  induction k with
  | nil =>
    intro T s r _ _ _ h
    simp [create_transitions] at h
  | cons x rest ih =>
    intro T s r hT hs0 hs1 h
    cases hf : map_type.find T (edge_key s x) with
    | none =>
      rw [create_transitions_absent T s x rest hf] at h
      have hT1 : trie_shaped ((edge_key s x, (T.length : Int) + 1) :: T) :=
        ⟨rfl, hf, rfl, hs0, hs1, hT⟩
      by_cases hr : rest = []
      · rw [if_pos hr] at h
        cases h
        refine ⟨hT1, ?_, ?_⟩
        · simp only [state_type] at *
          omega
        · simp only [state_type, List.length_cons, Nat.cast_add, Nat.cast_one] at *
          omega
      · rw [if_neg hr] at h
        refine ih _ _ r hT1 ?_ ?_ h
        · simp only [state_type] at *
          omega
        · simp only [state_type, List.length_cons, Nat.cast_add, Nat.cast_one] at *
          omega
    | some t =>
      rw [create_transitions_present T s x rest hf] at h
      obtain ⟨ht1, ht2, _⟩ := trie_shaped_mem hT (map_type.mem_of_find hf)
      have ht0 : 0 ≤ t := by
        simp only [state_type] at *
        omega
      by_cases hr : rest = []
      · rw [if_pos hr] at h
        cases h
        exact ⟨hT, ht0, ht2⟩
      · rw [if_neg hr] at h
        exact ih T t r hT ht0 ht2 h

/-- Effect of `insert` with a non-empty key on any automaton. -/
theorem insert_spec (d : dfa_table K V) (k : List K) (hk : k ≠ []) (v : V) :
    ∃ fs d1, insert d k v = Except.ok d1 ∧
      create_transitions d.transitions INITIAL_STATE k = Except.ok (fs, d1.transitions) ∧
      preserved_in d.transitions d1.transitions ∧
      walk d1.transitions INITIAL_STATE k = some fs ∧
      d1.final_states = map_type.assign d.final_states fs v ∧
      (trie_shaped d.transitions → trie_shaped d1.transitions) := by
  obtain ⟨r, hr1, hr2, hr3⟩ := create_transitions_spec k hk d.transitions INITIAL_STATE
  obtain ⟨fs, T1⟩ := r
  refine ⟨fs, ⟨T1, map_type.assign d.final_states fs v⟩, ?_, hr1, hr2, hr3, rfl, ?_⟩
  · simp only [insert, hr1]
  · intro hT
    have h0 : (0 : Int) ≤ (d.transitions.length : Int) := Int.ofNat_nonneg _
    exact (create_transitions_trie_shaped k d.transitions INITIAL_STATE (fs, T1) hT
      (le_refl _) h0 hr1).1

theorem foldl_entry_step_of_walk (T : transition_map K) :
    ∀ (k : List K) (s t : state_type), walk T s k = some t →
      k.foldl entry_step (s, T) = (t, T) := by
  intro k
  induction k with
  | nil =>
    intro s t hw
    simp only [walk, Option.some.injEq] at hw
    simp [hw]
  | cons x rest ih =>
    intro s t hw
    simp only [walk] at hw
    cases hf : map_type.find T (edge_key s x) with
    | none => rw [hf] at hw; cases hw
    | some u =>
      rw [hf] at hw
      have hi : entry_step (s, T) x = (u, T) := map_type.index_of_find_some hf
      rw [List.foldl_cons, hi]
      exact ih u t hw

/-- A lookup whose path exists and ends in a state with a stored value returns
that value and leaves the automaton as it was. -/
theorem entry_of_walk [Inhabited V] (d : dfa_table K V) (k : List K) {t : state_type} {v : V}
    (hw : walk d.transitions INITIAL_STATE k = some t)
    (hv : map_type.find d.final_states t = some v) : entry d k = (v, d) := by
  simp only [entry]
  rw [foldl_entry_step_of_walk d.transitions k INITIAL_STATE t hw,
    map_type.index_of_find_some hv]

theorem inserts_append (d : dfa_table K V) (a b : List (List K × V)) :
    inserts d (a ++ b) =
      match inserts d a with
      | Except.error e => Except.error e
      | Except.ok d1 => inserts d1 b := by
  induction a generalizing d with
  | nil => rfl
  | cons c a ih =>
    obtain ⟨k, v⟩ := c
    simp only [List.cons_append, inserts]
    cases insert d k v with
    | error e => rfl
    | ok d1 => exact ih d1

/-- Insertions of non-empty keys all succeed; they keep the stored edges and
the trie shape. -/
theorem inserts_spec (calls : List (List K × V)) (hc : ∀ c ∈ calls, c.1 ≠ []) :
    ∀ d : dfa_table K V, ∃ d1, inserts d calls = Except.ok d1 ∧
      preserved_in d.transitions d1.transitions ∧
      (trie_shaped d.transitions → trie_shaped d1.transitions) := by
  induction calls with
  | nil => intro d; exact ⟨d, rfl, preserved_in_refl _, id⟩
  | cons c calls ih =>
    intro d
    obtain ⟨k, v⟩ := c
    obtain ⟨fs, d1, h1, _, h2, _, _, h3⟩ :=
      insert_spec d k (hc (k, v) (List.mem_cons_self _ _)) v
    obtain ⟨d2, h4, h5, h6⟩ := ih (fun c hm => hc c (List.mem_cons_of_mem _ hm)) d1
    refine ⟨d2, ?_, preserved_in_trans h2 h5, fun hT => h6 (h3 hT)⟩
    simp only [inserts, h1]
    exact h4

/-- C2, the code at the failing input.  After `insert("abc", 10)` and
`insert("axy", 20)` the path of "abc" ends in state 3 and the table has no
edge for (3, 'd'): `contains` is false for that key.  The call
`entry("abcd")` nevertheless returns a value, the value-initialised 0, and it
stores the edge (3, 'd') -> 0. -/
theorem entry_missing_edge_returns_default :
    ∃ d : dfa_table Char Int,
      inserts empty [(['a', 'b', 'c'], 10), (['a', 'x', 'y'], 20)] = Except.ok d ∧
      walk d.transitions INITIAL_STATE ['a', 'b', 'c'] = some 3 ∧
      map_type.find d.transitions (edge_key 3 'd') = none ∧
      map_type.contains d.transitions (edge_key 3 'd') = false ∧
      (entry d ['a', 'b', 'c', 'd']).1 = 0 ∧
      map_type.find (entry d ['a', 'b', 'c', 'd']).2.transitions (edge_key 3 'd') = some 0 :=
  ⟨_, rfl, by decide, by decide, by decide, by decide, by decide⟩

/-- C3, the code at the failing input.  After `insert("abc", 10)` and
`insert("axy", 20)` the path of the strict prefix "ab" exists and ends in
state 2, which is not a key of `final_states`.  The call `entry("ab")` returns
the value-initialised 0 and adds the entry 2 -> 0 to `final_states`. -/
theorem entry_non_terminal_returns_default :
    ∃ d : dfa_table Char Int,
      inserts empty [(['a', 'b', 'c'], 10), (['a', 'x', 'y'], 20)] = Except.ok d ∧
      walk d.transitions INITIAL_STATE ['a', 'b'] = some 2 ∧
      map_type.find d.final_states 2 = none ∧
      (entry d ['a', 'b']).1 = 0 ∧
      map_type.find (entry d ['a', 'b']).2.final_states 2 = some 0 :=
  ⟨_, rfl, by decide, by decide, by decide, by decide⟩

/-- C4, the code at the failing input.  `insert` has no test for an empty
sequence: on every automaton and for every value it calls `create_transitions`
with the empty span, whose first statement takes `front()` of it, which is
undefined behaviour.  No `EmptyKey` condition exists in the code. -/
theorem insert_empty_key_undefined (d : dfa_table K V) (v : V) :
    create_transitions d.transitions INITIAL_STATE ([] : List K) =
        Except.error undefined_behaviour.front_of_empty_span ∧
      insert d [] v = Except.error undefined_behaviour.front_of_empty_span :=
  ⟨rfl, rfl⟩

/-- C5, the code at the failing input.  On the automaton built by the first
two insertions of `main`, `entry("abq")` changes both maps: the transition
table grows from 5 to 6 entries, gaining (2, 'q') -> 0, and `final_states`
grows from 2 to 3 entries, gaining 0 -> 0. -/
theorem entry_changes_both_maps :
    ∃ d : dfa_table Char Int,
      inserts empty [(['a', 'b', 'c', 'd'], 23), (['a', 'b', 'x'], 53)] = Except.ok d ∧
      map_type.size d.transitions = 5 ∧
      map_type.size (entry d ['a', 'b', 'q']).2.transitions = 6 ∧
      map_type.find d.transitions (edge_key 2 'q') = none ∧
      map_type.find (entry d ['a', 'b', 'q']).2.transitions (edge_key 2 'q') = some 0 ∧
      map_type.size d.final_states = 2 ∧
      map_type.size (entry d ['a', 'b', 'q']).2.final_states = 3 ∧
      map_type.find d.final_states 0 = none ∧
      map_type.find (entry d ['a', 'b', 'q']).2.final_states 0 = some 0 :=
  ⟨_, rfl, by decide, by decide, by decide, by decide, by decide, by decide, by decide,
    by decide⟩

/-- C7, the code at the failing input.  On the automaton built by the first
two insertions of `main`, whose `final_states` has no entry for
`INITIAL_STATE`, `entry` of the empty sequence returns the value-initialised 0
and adds the entry 0 -> 0 to `final_states`. -/
theorem entry_empty_sequence_returns_default :
    ∃ d : dfa_table Char Int,
      inserts empty [(['a', 'b', 'c', 'd'], 23), (['a', 'b', 'x'], 53)] = Except.ok d ∧
      map_type.find d.final_states INITIAL_STATE = none ∧
      (entry d []).1 = 0 ∧
      map_type.find (entry d []).2.final_states INITIAL_STATE = some 0 :=
  ⟨_, rfl, by decide, by decide, by decide⟩

theorem create_transitions_of_walk (T : transition_map K) :
    ∀ (k : List K) (s t : state_type), k ≠ [] → walk T s k = some t →
      create_transitions T s k = Except.ok (t, T) := by
  intro k
  induction k with
  | nil => intro s t hk; exact absurd rfl hk
  | cons x rest ih =>
    intro s t _ hw
    simp only [walk] at hw
    cases hf : map_type.find T (edge_key s x) with
    | none => rw [hf] at hw; cases hw
    | some u =>
      rw [hf] at hw
      rw [create_transitions_present T s x rest hf]
      by_cases hr : rest = []
      · subst hr
        simp only [walk, Option.some.injEq] at hw
        rw [if_pos rfl, hw]
      · rw [if_neg hr]
        exact ih u t hr hw

theorem keys_assign {MK MV : Type} [DecidableEq MK] (m : map_type MK MV) (key : MK) (v : MV) :
    (map_type.assign m key v).map Prod.fst =
      if map_type.contains m key then m.map Prod.fst else key :: m.map Prod.fst := by
  unfold map_type.assign
  by_cases hc : map_type.contains m key = true
  · rw [if_pos hc, if_pos hc, List.map_map]
    apply List.map_congr_left
    intro e _
    by_cases he : e.1 = key <;> simp [he]
  · rw [if_neg hc, if_neg hc, List.map_cons]

theorem keys_assign_nodup {MK MV : Type} [DecidableEq MK] (m : map_type MK MV) (key : MK)
    (v : MV) (h : (m.map Prod.fst).Nodup) : ((map_type.assign m key v).map Prod.fst).Nodup := by
  rw [keys_assign]
  by_cases hc : map_type.contains m key = true
  · rw [if_pos hc]; exact h
  · rw [if_neg hc]
    have hn : map_type.find m key = none :=
      (map_type.contains_eq_false_iff m key).1 (by simpa using hc)
    exact List.nodup_cons.2 ⟨(map_type.find_eq_none_iff m key).1 hn, h⟩

theorem key_mem_of_find {MK MV : Type} [DecidableEq MK] {m : map_type MK MV} {key : MK} {v : MV}
    (h : map_type.find m key = some v) : key ∈ m.map Prod.fst :=
  List.mem_map.2 ⟨(key, v), map_type.mem_of_find h, rfl⟩

/-- C6 (overwrite).  On any automaton whose `final_states` holds at most one
entry per state (as every `std::unordered_map` does), for a non-empty key `k`:
`insert(k, v1)` and then `insert(k, v2)` both succeed, `entry(k)` afterwards
returns `v2`, the end state of the path of `k` occurs exactly once among the
keys of `final_states` and is mapped to `v2`, and the second insert leaves the
transition table as the first one left it. -/
theorem insert_twice_overwrites [Inhabited V] (d : dfa_table K V)
    (hF : (d.final_states.map Prod.fst).Nodup) (k : List K) (hk : k ≠ []) (v1 v2 : V) :
    ∃ d1 d2 fs, insert d k v1 = Except.ok d1 ∧ insert d1 k v2 = Except.ok d2 ∧
      (entry d2 k).1 = v2 ∧
      walk d2.transitions INITIAL_STATE k = some fs ∧
      (d2.final_states.map Prod.fst).count fs = 1 ∧
      map_type.find d2.final_states fs = some v2 ∧
      d2.transitions = d1.transitions := by
  obtain ⟨fs, d1, h1, _, _, h3, h4, _⟩ := insert_spec d k hk v1
  have hc := create_transitions_of_walk d1.transitions k INITIAL_STATE fs hk h3
  have hv : map_type.find (map_type.assign d1.final_states fs v2) fs = some v2 :=
    map_type.find_assign_self _ _ _
  have hn : ((map_type.assign d1.final_states fs v2).map Prod.fst).Nodup := by
    rw [h4]
    exact keys_assign_nodup _ _ _ (keys_assign_nodup _ _ _ hF)
  refine ⟨d1, ⟨d1.transitions, map_type.assign d1.final_states fs v2⟩, fs, h1, ?_, ?_, h3,
    ?_, hv, rfl⟩
  · simp only [insert, hc]
  · rw [entry_of_walk (⟨d1.transitions, map_type.assign d1.final_states fs v2⟩ : dfa_table K V)
      k h3 hv]
  · exact List.count_eq_one_of_mem hn (key_mem_of_find hv)

/-- Instance of C6: "abc" inserted twice into an automaton given by its two
maps. -/
theorem insert_twice_overwrites_witness :
    ((([((3 : Int), (53 : Int)), (4, 23)] : value_map Int).map Prod.fst).Nodup) ∧
    ['a', 'b', 'c'] ≠ [] ∧
    ∃ d1 d2 fs,
      insert (⟨[(edge_key 2 'x', 3), (edge_key 0 'a', 1), (edge_key 1 'b', 2)],
        [(3, 53), (4, 23)]⟩ : dfa_table Char Int) ['a', 'b', 'c'] 1 = Except.ok d1 ∧
      insert d1 ['a', 'b', 'c'] 2 = Except.ok d2 ∧
      (entry d2 ['a', 'b', 'c']).1 = 2 ∧
      walk d2.transitions INITIAL_STATE ['a', 'b', 'c'] = some fs ∧
      (d2.final_states.map Prod.fst).count fs = 1 ∧
      map_type.find d2.final_states fs = some 2 ∧
      d2.transitions = d1.transitions :=
  ⟨by decide, by decide,
    insert_twice_overwrites
      (⟨[(edge_key 2 'x', 3), (edge_key 0 'a', 1), (edge_key 1 'b', 2)], [(3, 53), (4, 23)]⟩ :
        dfa_table Char Int) (by decide) ['a', 'b', 'c'] (by decide) 1 2⟩

theorem visited_length_of_walk (T : transition_map K) :
    ∀ (k : List K) (s t : state_type), walk T s k = some t →
      (visited T s k).length = k.length := by
  intro k
  induction k with
  | nil => intro s t _; rfl
  | cons x rest ih =>
    intro s t hw
    simp only [walk] at hw
    simp only [visited]
    cases hf : map_type.find T (edge_key s x) with
    | none => rw [hf] at hw; cases hw
    | some u =>
      rw [hf] at hw
      simp only [List.length_cons]
      rw [ih u t hw]

theorem visited_append_of_walk (T : transition_map K) (r : List K) :
    ∀ (p : List K) (s u : state_type), walk T s p = some u →
      visited T s (p ++ r) = visited T s p ++ visited T u r := by
  intro p
  induction p with
  | nil =>
    intro s u hw
    simp only [walk, Option.some.injEq] at hw
    rw [hw]; rfl
  | cons x rest ih =>
    intro s u hw
    simp only [walk] at hw
    rw [List.cons_append]
    simp only [visited]
    cases hf : map_type.find T (edge_key s x) with
    | none => rw [hf] at hw; cases hw
    | some w =>
      rw [hf] at hw
      have h1 := ih w u hw
      simp only [List.cons_append, List.cons.injEq, true_and]
      exact h1

theorem visited_take_of_walk (T : transition_map K) (p r : List K) {s u : state_type}
    (hw : walk T s p = some u) :
    (visited T s (p ++ r)).take p.length = visited T s p := by
  rw [visited_append_of_walk T r p s u hw, ← visited_length_of_walk T p s u hw,
    List.take_left]

theorem visited_mono {T T1 : transition_map K} (h : preserved_in T T1) :
    ∀ (p : List K) (s u : state_type), walk T s p = some u →
      visited T1 s p = visited T s p := by
  intro p
  induction p with
  | nil => intro s u _; rfl
  | cons x rest ih =>
    intro s u hw
    simp only [walk] at hw
    simp only [visited]
    cases hf : map_type.find T (edge_key s x) with
    | none => rw [hf] at hw; cases hw
    | some w =>
      rw [hf] at hw
      rw [h _ _ hf]
      simp only [List.cons.injEq, true_and]
      exact ih w u hw

/-- Processing `p ++ r` is processing `p` and then `r` from the state and the
table that `p` left. -/
theorem create_transitions_append (r : List K) (hr : r ≠ []) :
    ∀ (p : List K), p ≠ [] → ∀ (T : transition_map K) (s : state_type),
      create_transitions T s (p ++ r) =
        match create_transitions T s p with
        | Except.error e => Except.error e
        | Except.ok q => create_transitions q.2 q.1 r := by
  intro p
  induction p with
  | nil => intro hp; exact absurd rfl hp
  | cons x rest ih =>
    intro _ T s
    have hne : rest ++ r ≠ [] := by simp [hr]
    cases hf : map_type.find T (edge_key s x) with
    | none =>
      rw [List.cons_append, create_transitions_absent T s x (rest ++ r) hf,
        create_transitions_absent T s x rest hf, if_neg hne]
      by_cases hrest : rest = []
      · subst hrest
        simp
      · rw [if_neg hrest]
        exact ih hrest _ _
    | some t =>
      rw [List.cons_append, create_transitions_present T s x (rest ++ r) hf,
        create_transitions_present T s x rest hf, if_neg hne]
      by_cases hrest : rest = []
      · subst hrest
        simp
      · rw [if_neg hrest]
        exact ih hrest _ _

/-- Inserting a key that starts with `p`, followed by further insertions,
keeps every edge of the table obtained by processing `p` alone. -/
theorem inserts_keep_prefix_edges (d0 : dfa_table K V) (p r : List K) (hp : p ≠ []) (v : V)
    (calls : List (List K × V)) (hc : ∀ c ∈ calls, c.1 ≠ [])
    {q : state_type × transition_map K}
    (hq : create_transitions d0.transitions INITIAL_STATE p = Except.ok q) :
    ∃ d, inserts d0 ((p ++ r, v) :: calls) = Except.ok d ∧ preserved_in q.2 d.transitions := by
  have hpr : p ++ r ≠ [] := by simp [hp]
  obtain ⟨fs, d1, h1, h2, _, _, _, _⟩ := insert_spec d0 (p ++ r) hpr v
  obtain ⟨d2, h3, h4, _⟩ := inserts_spec calls hc d1
  refine ⟨d2, ?_, ?_⟩
  · simp only [inserts, h1]
    exact h3
  · refine preserved_in_trans ?_ h4
    by_cases hr : r = []
    · subst hr
      rw [List.append_nil] at h2
      rw [hq] at h2
      simp only [Except.ok.injEq] at h2
      rw [h2]
      exact preserved_in_refl _
    · rw [create_transitions_append r hr p hp, hq] at h2
      obtain ⟨q1, h5, h6, _⟩ := create_transitions_spec r hr q.2 q.1
      simp only [h5, Except.ok.injEq] at h2
      rw [h2] at h6
      exact h6

/-- C8 (prefix sharing).  Take insertions of non-empty keys into the empty
automaton among which two keys `p ++ r1` and `p ++ r2` share the non-empty
prefix `p`, and take the same calls with these two exchanged.  Both sequences
succeed.  In the automaton built, the states visited from `INITIAL_STATE`
along the first `|p|` symbols all exist and are the same list for both keys,
and this list is the same in the automaton built with the two keys exchanged. -/
theorem shared_prefix_same_states (A B C : List (List K × V)) (p r1 r2 : List K) (v1 v2 : V)
    (hA : ∀ c ∈ A, c.1 ≠ []) (hB : ∀ c ∈ B, c.1 ≠ []) (hC : ∀ c ∈ C, c.1 ≠ [])
    (hp : p ≠ []) :
    ∃ d d1 : dfa_table K V,
      inserts empty (A ++ ((p ++ r1, v1) :: (B ++ ((p ++ r2, v2) :: C)))) = Except.ok d ∧
      inserts empty (A ++ ((p ++ r2, v2) :: (B ++ ((p ++ r1, v1) :: C)))) = Except.ok d1 ∧
      ((visited d.transitions INITIAL_STATE (p ++ r1)).take p.length).length = p.length ∧
      (visited d.transitions INITIAL_STATE (p ++ r1)).take p.length =
        (visited d.transitions INITIAL_STATE (p ++ r2)).take p.length ∧
      (visited d1.transitions INITIAL_STATE (p ++ r1)).take p.length =
        (visited d.transitions INITIAL_STATE (p ++ r1)).take p.length ∧
      (visited d1.transitions INITIAL_STATE (p ++ r2)).take p.length =
        (visited d.transitions INITIAL_STATE (p ++ r2)).take p.length := by
  obtain ⟨d0, h0, _, _⟩ := inserts_spec A hA (empty : dfa_table K V)
  obtain ⟨q, hq, _, hwq⟩ := create_transitions_spec p hp d0.transitions INITIAL_STATE
  have hrest : ∀ (r : List K) (v : V), ∀ c ∈ B ++ ((p ++ r, v) :: C), c.1 ≠ [] := by
    intro r v c hc
    rcases List.mem_append.1 hc with h | h
    · exact hB c h
    · rcases List.mem_cons.1 h with h | h
      · rw [h]; simp [hp]
      · exact hC c h
  obtain ⟨d, hd, hpd⟩ := inserts_keep_prefix_edges d0 p r1 hp v1 _ (hrest r2 v2) hq
  obtain ⟨d1, hd1, hpd1⟩ := inserts_keep_prefix_edges d0 p r2 hp v2 _ (hrest r1 v1) hq
  have key : ∀ (e : dfa_table K V) (r : List K), preserved_in q.2 e.transitions →
      (visited e.transitions INITIAL_STATE (p ++ r)).take p.length =
        visited q.2 INITIAL_STATE p := by
    intro e r he
    rw [visited_take_of_walk e.transitions p r (walk_mono he p INITIAL_STATE q.1 hwq)]
    exact visited_mono he p INITIAL_STATE q.1 hwq
  refine ⟨d, d1, ?_, ?_, ?_, ?_, ?_, ?_⟩
  · rw [inserts_append, h0]
    exact hd
  · rw [inserts_append, h0]
    exact hd1
  · rw [key d r1 hpd]
    exact visited_length_of_walk q.2 p INITIAL_STATE q.1 hwq
  · rw [key d r1 hpd, key d r2 hpd]
  · rw [key d1 r1 hpd1, key d r1 hpd]
  · rw [key d1 r2 hpd1, key d r2 hpd]

/-- Instance of C8 on the first two insertions of `main`, which share "ab",
with one unrelated key inserted before them. -/
theorem shared_prefix_same_states_witness :
    (∀ c ∈ [(['z'], (1 : Int))], c.1 ≠ []) ∧ (∀ c ∈ ([] : List (List Char × Int)), c.1 ≠ []) ∧
    (∀ c ∈ ([] : List (List Char × Int)), c.1 ≠ []) ∧ ['a', 'b'] ≠ [] ∧
    ∃ d d1 : dfa_table Char Int,
      inserts empty ([(['z'], 1)] ++
        ((['a', 'b'] ++ ['c', 'd'], 23) :: ([] ++ ((['a', 'b'] ++ ['x'], 53) :: [])))) =
          Except.ok d ∧
      inserts empty ([(['z'], 1)] ++
        ((['a', 'b'] ++ ['x'], 53) :: ([] ++ ((['a', 'b'] ++ ['c', 'd'], 23) :: [])))) =
          Except.ok d1 ∧
      ((visited d.transitions INITIAL_STATE (['a', 'b'] ++ ['c', 'd'])).take
        ['a', 'b'].length).length = ['a', 'b'].length ∧
      (visited d.transitions INITIAL_STATE (['a', 'b'] ++ ['c', 'd'])).take ['a', 'b'].length =
        (visited d.transitions INITIAL_STATE (['a', 'b'] ++ ['x'])).take ['a', 'b'].length ∧
      (visited d1.transitions INITIAL_STATE (['a', 'b'] ++ ['c', 'd'])).take ['a', 'b'].length =
        (visited d.transitions INITIAL_STATE (['a', 'b'] ++ ['c', 'd'])).take
          ['a', 'b'].length ∧
      (visited d1.transitions INITIAL_STATE (['a', 'b'] ++ ['x'])).take ['a', 'b'].length =
        (visited d.transitions INITIAL_STATE (['a', 'b'] ++ ['x'])).take ['a', 'b'].length :=
  ⟨by decide, by decide, by decide, by decide,
    shared_prefix_same_states [(['z'], 1)] [] [] ['a', 'b'] ['c', 'd'] ['x'] 23 53
      (by decide) (by decide) (by decide) (by decide)⟩

theorem create_transitions_size_le (k : List K) :
    ∀ (T : transition_map K) (s : state_type) (r : state_type × transition_map K),
      create_transitions T s k = Except.ok r → map_type.size T ≤ map_type.size r.2 := by
  induction k with
  | nil =>
    intro T s r h
    simp [create_transitions] at h
  | cons x rest ih =>
    intro T s r h
    cases hf : map_type.find T (edge_key s x) with
    | none =>
      rw [create_transitions_absent T s x rest hf] at h
      by_cases hr : rest = []
      · rw [if_pos hr] at h
        cases h
        simp [map_type.size]
      · rw [if_neg hr] at h
        have := ih _ _ r h
        simp only [map_type.size, List.length_cons] at *
        omega
    | some t =>
      rw [create_transitions_present T s x rest hf] at h
      by_cases hr : rest = []
      · rw [if_pos hr] at h
        cases h
        exact le_refl _
      · rw [if_neg hr] at h
        exact ih T t r h

/-- C12 (insertion only grows the tables).  On any automaton, `insert(k, v)`
with a non-empty key succeeds; every edge stored before is stored afterwards
with the same target, the table has not shrunk, and the entry of
`final_states` for every state other than the end state of the path of `k` is
what it was. -/
theorem insert_only_grows (d : dfa_table K V) (k : List K) (hk : k ≠ []) (v : V) :
    ∃ d1 fs, insert d k v = Except.ok d1 ∧
      walk d1.transitions INITIAL_STATE k = some fs ∧
      (∀ key t, map_type.find d.transitions key = some t →
        map_type.find d1.transitions key = some t) ∧
      map_type.size d.transitions ≤ map_type.size d1.transitions ∧
      (∀ s, s ≠ fs → map_type.find d1.final_states s = map_type.find d.final_states s) := by
  obtain ⟨fs, d1, h1, h2, h3, h4, h5, _⟩ := insert_spec d k hk v
  refine ⟨d1, fs, h1, h4, h3, ?_, ?_⟩
  · exact create_transitions_size_le k _ _ _ h2
  · intro s hs
    rw [h5, map_type.find_assign_ne _ _ hs]

/-- Instance of C12: "abx" inserted into the automaton holding "abcd". -/
theorem insert_only_grows_witness :
    ['a', 'b', 'x'] ≠ [] ∧
    ∃ d1 fs,
      insert (⟨[(edge_key 3 'd', 4), (edge_key 2 'c', 3), (edge_key 1 'b', 2),
        (edge_key 0 'a', 1)], [(4, 23)]⟩ : dfa_table Char Int) ['a', 'b', 'x'] 53 =
          Except.ok d1 ∧
      walk d1.transitions INITIAL_STATE ['a', 'b', 'x'] = some fs ∧
      (∀ key t,
        map_type.find ([(edge_key 3 'd', 4), (edge_key 2 'c', 3), (edge_key 1 'b', 2),
          (edge_key 0 'a', 1)] : transition_map Char) key = some t →
        map_type.find d1.transitions key = some t) ∧
      map_type.size ([(edge_key 3 'd', 4), (edge_key 2 'c', 3), (edge_key 1 'b', 2),
          (edge_key 0 'a', 1)] : transition_map Char) ≤ map_type.size d1.transitions ∧
      (∀ s, s ≠ fs →
        map_type.find d1.final_states s = map_type.find ([(4, 23)] : value_map Int) s) :=
  ⟨by decide,
    insert_only_grows (⟨[(edge_key 3 'd', 4), (edge_key 2 'c', 3), (edge_key 1 'b', 2),
      (edge_key 0 'a', 1)], [(4, 23)]⟩ : dfa_table Char Int) ['a', 'b', 'x'] (by decide) 53⟩

/-- C18 (immediate round trip on any state).  Whatever the two maps of an
automaton hold, for a non-empty key `k` and a value `v` the call
`insert(k, v)` succeeds and `entry(k)` on the automaton it leaves returns `v`. -/
theorem entry_after_insert_returns_value [Inhabited V] (d : dfa_table K V) (k : List K)
    (hk : k ≠ []) (v : V) :
    ∃ d1, insert d k v = Except.ok d1 ∧ (entry d1 k).1 = v := by
  obtain ⟨fs, d1, h1, _, _, h4, h5, _⟩ := insert_spec d k hk v
  have hv : map_type.find d1.final_states fs = some v := by
    rw [h5]
    exact map_type.find_assign_self _ _ _
  exact ⟨d1, h1, by rw [entry_of_walk d1 k h4 hv]⟩

/-- Instance of C18 on an automaton that a lookup of an unknown key has left
with the edge (0, 'a') -> 0 and the final entry 0 -> 0. -/
theorem entry_after_insert_returns_value_witness :
    ['a', 'b'] ≠ [] ∧
    ∃ d1, insert (⟨[(edge_key 0 'a', 0)], [(0, 0)]⟩ : dfa_table Char Int) ['a', 'b'] 7 =
        Except.ok d1 ∧ (entry d1 ['a', 'b']).1 = 7 :=
  ⟨by decide,
    entry_after_insert_returns_value (⟨[(edge_key 0 'a', 0)], [(0, 0)]⟩ : dfa_table Char Int)
      ['a', 'b'] (by decide) 7⟩

theorem ensure_edge_of_find_none (T : transition_map K) (s : state_type) (x : K)
    (h : map_type.find T (edge_key s x) = none) :
    ensure_edge T s x = ((T.length : Int) + 1, (edge_key s x, (T.length : Int) + 1) :: T) := by
  simp [ensure_edge, h, map_type.size]

theorem ensure_edge_of_find_some (T : transition_map K) (s : state_type) (x : K)
    {t : state_type} (h : map_type.find T (edge_key s x) = some t) :
    ensure_edge T s x = (t, T) := by
  simp [ensure_edge, h]

theorem ensure_path_cons (T : transition_map K) (s : state_type) (x : K) (rest : List K) :
    ensure_path T s (x :: rest) = ensure_path (ensure_edge T s x).2 (ensure_edge T s x).1 rest := by
  simp [ensure_path]

/-- C15 (the recursion is the loop of the specification).  On any transition
table, from any state and for any non-empty symbol sequence,
`create_transitions` returns, without meeting `front()` of an empty span, the
state and the table that the loop `current = ensure_edge(current, symbol)`
over the sequence produces.  The recursion is on the tail of the span, so it
ends after as many calls as the sequence has symbols. -/
theorem create_transitions_eq_ensure_path (k : List K) (hk : k ≠ []) :
    ∀ (T : transition_map K) (s : state_type),
      create_transitions T s k = Except.ok (ensure_path T s k) := by
  induction k with
  | nil => exact absurd rfl hk
  | cons x rest ih =>
    intro T s
    rw [ensure_path_cons]
    cases hf : map_type.find T (edge_key s x) with
    | none =>
      rw [create_transitions_absent T s x rest hf, ensure_edge_of_find_none T s x hf]
      by_cases hr : rest = []
      · subst hr
        rfl
      · rw [if_neg hr]
        exact ih hr _ _
    | some t =>
      rw [create_transitions_present T s x rest hf, ensure_edge_of_find_some T s x hf]
      by_cases hr : rest = []
      · subst hr
        rfl
      · rw [if_neg hr]
        exact ih hr _ _

/-- Instance of C15: the span "bx" processed from state 1 of a table holding
the path of "ab". -/
theorem create_transitions_eq_ensure_path_witness :
    ['b', 'x'] ≠ [] ∧
    create_transitions ([(edge_key 1 'b', 2), (edge_key 0 'a', 1)] : transition_map Char) 1
        ['b', 'x'] =
      Except.ok (ensure_path ([(edge_key 1 'b', 2), (edge_key 0 'a', 1)] : transition_map Char)
        1 ['b', 'x']) :=
  ⟨by decide,
    create_transitions_eq_ensure_path ['b', 'x'] (by decide)
      ([(edge_key 1 'b', 2), (edge_key 0 'a', 1)] : transition_map Char) 1⟩

theorem last_value_at_eq_none_iff (T : transition_map K) (s : state_type)
    (calls : List (List K × V)) :
    last_value_at T s calls = none ↔ ∀ c ∈ calls, walk T INITIAL_STATE c.1 ≠ some s := by
  induction calls with
  | nil => simp [last_value_at]
  | cons c calls ih =>
    obtain ⟨k, v⟩ := c
    simp only [last_value_at, List.mem_cons, forall_eq_or_imp]
    cases hl : last_value_at T s calls with
    | some w =>
      have hne : ¬ ∀ c ∈ calls, walk T INITIAL_STATE c.1 ≠ some s := by
        intro h
        rw [ih.2 h] at hl
        cases hl
      constructor
      · intro h
        cases h
      · intro h
        exact absurd h.2 hne
    | none =>
      have hall := ih.1 hl
      by_cases hw : walk T INITIAL_STATE k = some s
      · constructor
        · intro h
          simp [hw] at h
        · intro h
          exact absurd hw h.1
      · constructor
        · intro _
          exact ⟨hw, hall⟩
        · intro _
          simp [hw]

theorem last_value_at_eq_some_iff (T : transition_map K) (s : state_type)
    (calls : List (List K × V)) (v : V) :
    last_value_at T s calls = some v ↔
      ∃ pre k post, calls = pre ++ (k, v) :: post ∧ walk T INITIAL_STATE k = some s ∧
        ∀ c ∈ post, walk T INITIAL_STATE c.1 ≠ some s := by
  induction calls with
  | nil => simp [last_value_at]
  | cons c calls ih =>
    obtain ⟨k1, v1⟩ := c
    simp only [last_value_at]
    constructor
    · intro h
      cases hl : last_value_at T s calls with
      | some w =>
        rw [hl] at h
        simp only [Option.some.injEq] at h
        rw [h] at hl
        obtain ⟨pre, k, post, h1, h2, h3⟩ := ih.1 hl
        exact ⟨(k1, v1) :: pre, k, post, by rw [h1]; rfl, h2, h3⟩
      | none =>
        rw [hl] at h
        by_cases hw : walk T INITIAL_STATE k1 = some s
        · simp only [hw, if_true, Option.some.injEq] at h
          rw [← h]
          exact ⟨[], k1, calls, rfl, hw, (last_value_at_eq_none_iff T s calls).1 hl⟩
        · simp [hw] at h
    · rintro ⟨pre, k, post, h1, h2, h3⟩
      cases pre with
      | nil =>
        simp only [List.nil_append, List.cons.injEq, Prod.mk.injEq] at h1
        obtain ⟨⟨hk, hv⟩, hpost⟩ := h1
        subst hk; subst hv; subst hpost
        rw [(last_value_at_eq_none_iff T s calls).2 h3]
        simp [h2]
      | cons c0 pre =>
        simp only [List.cons_append, List.cons.injEq] at h1
        rw [ih.2 ⟨pre, k, post, h1.2, h2, h3⟩]

/-- After insertions of non-empty keys, the value stored for a state is the
value of the last of these insertions whose key ends there, or else what was
stored before. -/
theorem final_states_after_inserts (calls : List (List K × V)) (hc : ∀ c ∈ calls, c.1 ≠ []) :
    ∀ (d0 d : dfa_table K V), inserts d0 calls = Except.ok d → ∀ s : state_type,
      map_type.find d.final_states s =
        match last_value_at d.transitions s calls with
        | some w => some w
        | none => map_type.find d0.final_states s := by
  induction calls with
  | nil =>
    intro d0 d h s
    simp only [inserts, Except.ok.injEq] at h
    rw [h]
    rfl
  | cons c calls ih =>
    intro d0 d h s
    obtain ⟨k1, v1⟩ := c
    obtain ⟨fs, d1, h1, _, _, h3, h4, _⟩ :=
      insert_spec d0 k1 (hc (k1, v1) (List.mem_cons_self _ _)) v1
    simp only [inserts, h1] at h
    have hc1 : ∀ c ∈ calls, c.1 ≠ [] := fun c hm => hc c (List.mem_cons_of_mem _ hm)
    obtain ⟨d2, h5, h6, _⟩ := inserts_spec calls hc1 d1
    rw [h] at h5
    simp only [Except.ok.injEq] at h5
    subst h5
    have hw : walk d.transitions INITIAL_STATE k1 = some fs := walk_mono h6 k1 _ _ h3
    rw [ih hc1 d1 d h s]
    simp only [last_value_at]
    cases last_value_at d.transitions s calls with
    | some w => rfl
    | none =>
      simp only [hw, Option.some.injEq]
      by_cases hs : fs = s
      · subst hs
        rw [h4, map_type.find_assign_self]
        simp
      · rw [h4, map_type.find_assign_ne _ _ (fun h => hs h.symm)]
        simp [hs]

/-- C11 (final-state map invariant).  In the automaton built from the empty one
by insertions of non-empty keys, a state `s` is a key of `final_states` exactly
when the path of at least one inserted key ends in `s`, and `final_states` maps
`s` to `v` exactly when the last insertion whose key ends in `s` is one with
value `v`. -/
theorem final_states_invariant (calls : List (List K × V)) (hc : ∀ c ∈ calls, c.1 ≠ [])
    (d : dfa_table K V) (hd : inserts empty calls = Except.ok d) (s : state_type) :
    (map_type.contains d.final_states s = true ↔
        ∃ c ∈ calls, walk d.transitions INITIAL_STATE c.1 = some s) ∧
      (∀ v, map_type.find d.final_states s = some v ↔
        ∃ pre k post, calls = pre ++ (k, v) :: post ∧
          walk d.transitions INITIAL_STATE k = some s ∧
          ∀ c ∈ post, walk d.transitions INITIAL_STATE c.1 ≠ some s) := by
  have h := final_states_after_inserts calls hc empty d hd s
  have hfind : map_type.find d.final_states s = last_value_at d.transitions s calls := by
    rw [h]
    cases last_value_at d.transitions s calls <;> rfl
  refine ⟨?_, fun v => ?_⟩
  · rw [map_type.contains_eq_true_iff, hfind]
    constructor
    · rintro ⟨v, hv⟩
      obtain ⟨pre, k, post, h1, h2, _⟩ := (last_value_at_eq_some_iff _ _ _ v).1 hv
      exact ⟨(k, v), by rw [h1]; simp, h2⟩
    · rintro ⟨c, hm, hw⟩
      cases hl : last_value_at d.transitions s calls with
      | some w => exact ⟨w, rfl⟩
      | none => exact absurd hw ((last_value_at_eq_none_iff _ _ _).1 hl c hm)
  · rw [hfind]
    exact last_value_at_eq_some_iff _ _ _ v

/-- Instance of C11 on "ab" -> 1, "ab" -> 2 and state 2. -/
theorem final_states_invariant_witness :
    (∀ c ∈ [(['a', 'b'], (1 : Int)), (['a', 'b'], 2)], c.1 ≠ []) ∧
    inserts empty [(['a', 'b'], (1 : Int)), (['a', 'b'], 2)] =
      Except.ok (⟨[(edge_key 1 'b', 2), (edge_key 0 'a', 1)], [(2, 2)]⟩ : dfa_table Char Int) ∧
    (map_type.contains ([(2, 2)] : value_map Int) 2 = true ↔
        ∃ c ∈ [(['a', 'b'], (1 : Int)), (['a', 'b'], 2)],
          walk ([(edge_key 1 'b', 2), (edge_key 0 'a', 1)] : transition_map Char)
            INITIAL_STATE c.1 = some 2) ∧
      (∀ v, map_type.find ([(2, 2)] : value_map Int) 2 = some v ↔
        ∃ pre k post, [(['a', 'b'], (1 : Int)), (['a', 'b'], 2)] = pre ++ (k, v) :: post ∧
          walk ([(edge_key 1 'b', 2), (edge_key 0 'a', 1)] : transition_map Char)
            INITIAL_STATE k = some 2 ∧
          ∀ c ∈ post, walk ([(edge_key 1 'b', 2), (edge_key 0 'a', 1)] : transition_map Char)
            INITIAL_STATE c.1 ≠ some 2) :=
  have hd : inserts empty [(['a', 'b'], (1 : Int)), (['a', 'b'], 2)] =
      Except.ok (⟨[(edge_key 1 'b', 2), (edge_key 0 'a', 1)], [(2, 2)]⟩ :
        dfa_table Char Int) := rfl
  ⟨by decide, hd,
    final_states_invariant [(['a', 'b'], (1 : Int)), (['a', 'b'], 2)] (by decide)
      (⟨[(edge_key 1 'b', 2), (edge_key 0 'a', 1)], [(2, 2)]⟩ : dfa_table Char Int) hd 2⟩

end dfa_table

end unorthodox

namespace unorthodox

namespace state_transition

variable {State Transition : Type} [DecidableEq State] [DecidableEq Transition]

theorem operator_eq_iff_eq (a b : state_transition State Transition) :
    operator_eq a b = true ↔ a = b := by
  obtain ⟨c1, t1, f1⟩ := a
  obtain ⟨c2, t2, f2⟩ := b
  simp [operator_eq, and_assoc]

/-- C17, counterexample.  The keys `{0, 'a', 0}` and `{0, 'a', 1}` agree in
`current` and in `transition` and compare unequal, because the defaulted
comparison also compares `flags`: equality is not decided by the two
components alone. -/
theorem operator_eq_not_two_components :
    ¬ ∀ a b : state_transition Int Char,
      (operator_eq a b = true ↔ (a.current = b.current ∧ a.transition = b.transition)) := by
  intro h
  have h1 := (h ⟨0, 'a', 0⟩ ⟨0, 'a', 1⟩).2 ⟨rfl, rfl⟩
  revert h1
  decide

/-- C17, amended.  Two `state_transition` values compare equal exactly when
`current`, `transition` and `flags` are all equal; for values with equal
`flags`, as all keys that `dfa_table` builds are, this is equality of the two
components.  Values that compare equal have equal hashes, and the hash is
`hash(current) * 2027 + hash(transition)` modulo `2^64`. -/
theorem operator_eq_iff_members (a b : state_transition State Transition) :
    (operator_eq a b = true ↔
        (a.current = b.current ∧ a.transition = b.transition ∧ a.flags = b.flags)) ∧
      (a.flags = b.flags →
        (operator_eq a b = true ↔ (a.current = b.current ∧ a.transition = b.transition))) ∧
      (∀ (hash_S : State → Nat) (hash_T : Transition → Nat),
        operator_eq a b = true → hash hash_S hash_T a = hash hash_S hash_T b) ∧
      (∀ (hash_S : State → Nat) (hash_T : Transition → Nat),
        hash hash_S hash_T a = (hash_S a.current * 2027 + hash_T a.transition) % 2 ^ 64) := by
  refine ⟨?_, ?_, ?_, ?_⟩
  · simp [operator_eq, and_assoc]
  · intro hf
    simp [operator_eq, hf]
  · intro hash_S hash_T h
    rw [(operator_eq_iff_eq a b).1 h]
  · intro hash_S hash_T
    simp only [hash, SIZE_T_RANGE, prime]
    generalize hash_S a.current = u
    generalize hash_T a.transition = w
    omega

end state_transition

end unorthodox

namespace unorthodox

namespace dfa_table

variable {K V : Type} [DecidableEq K]

end dfa_table

end unorthodox
